import Mathlib

/-!
Verification of `src/simple-vector/simple_vector.h` (a growable contiguous
sequence container `SimpleVector<Type>` layered over a raw owned buffer
`ArrayPtr<Type>`).

The container state is embedded as the list of live elements (the constructed
prefix `[0, size)` of the backing buffer) together with the capacity counter.
The `size_` field of the source is recovered as the length of that list, which
is faithful because every member function constructs exactly the elements it
makes live and the slots `[size, capacity)` are never read.

Machine arithmetic: all sizes in the source are `size_t`.  Within the ranges
any of the verified properties touch, no `size_t` operation can wrap, so
sizes are embedded as `Nat`; the single place where a wrap could occur
(`size_ - 1` inside `Erase` when `size_ == 0`) is reached only through a call
whose iterator arithmetic is already undefined behavior, and is noted at the
definition.

A second, heap-indexed model (`Mem`, `SVm`) gives buffers identity so that
deep-copy isolation (the copy constructor allocating a fresh buffer) is a
provable statement rather than a vacuity of the functional model.
-/

universe u

/-- State of a `SimpleVector<Type>`: the live elements `[0, size_)` of the
backing `ArrayPtr` and the `capacity_` field.  `size_` is `elems.length`. -/
structure SimpleVector (α : Type u) where
  elems : List α
  cap : Nat
deriving Repr, DecidableEq

namespace SimpleVector

/-- Embeds `GetSize`: returns `size_`. -/
def GetSize (s : SimpleVector α) : Nat :=
  s.elems.length

/-- Embeds `GetCapacity`: returns `capacity_`. -/
def GetCapacity (s : SimpleVector α) : Nat :=
  s.cap

/-- Embeds `IsEmpty`: `size_ == 0`. -/
def IsEmpty (s : SimpleVector α) : Bool :=
  s.elems.length = 0

/-- Embeds `PushBack(Type item)`: when `size_ == capacity_` the buffer grows to
`capacity_ == 0 ? 1 : 2 * capacity_` and the live elements are moved across in
order; then `item` is placement-constructed at slot `size_` and `size_`
increments. -/
def PushBack (s : SimpleVector α) (item : α) : SimpleVector α :=
  if s.elems.length = s.cap then
    let newCapacity := if s.cap = 0 then 1 else 2 * s.cap
    ⟨s.elems ++ [item], newCapacity⟩
  else
    ⟨s.elems ++ [item], s.cap⟩

/-- Embeds `PopBack`: after the debug assertion `assert(size_ > 0)` the body is
just `--size_`, so the last live element stops being live.  Precondition
`size_ > 0`; on an empty vector the decrement would wrap `size_t`, which the
assertion rules out in debug builds. -/
def PopBack (s : SimpleVector α) : SimpleVector α :=
  ⟨s.elems.take (s.elems.length - 1), s.cap⟩

/-- The debug check of `PopBack` (src line 88): `assert(size_ > 0)` aborts
exactly when `size_ > 0` fails. -/
def PopBackAssertViolated (s : SimpleVector α) : Bool :=
  !(decide (0 < s.elems.length))

/-- The debug check of `operator[]` (src lines 152 and 157):
`assert(index < size_)` aborts exactly when `index < size_` fails. -/
def SubscriptAssertViolated (s : SimpleVector α) (index : Nat) : Bool :=
  !(decide (index < s.elems.length))

/-- The debug checks of `Erase` (src lines 113-120): the body contains no
`assert` at all, so no debug check can ever abort; the constant `false`
mirrors that absence. -/
def EraseAssertViolated (_s : SimpleVector α) (_index : Nat) : Bool :=
  false

/-- Embeds `Insert(pos, value)` with `index = pos - begin()`.  At capacity the
grow branch moves `[0, index)` into a doubled buffer, constructs `value` at
`index`, and moves `[index, size_)` to `index + 1` onward; otherwise
`[index, size_)` shifts right one slot in place and `value` is constructed at
`index`.  Both branches yield the same element sequence.  Returns
`begin() + index`, embedded as the index.

Note: the grow branch of the source constructs the value with
`std::forward<U>(value)` although the function's template parameter is named
`Container` and no `U` is declared, so every instantiation of `Insert` is
ill-formed C++; the embedding uses the evident intent
`std::forward<Container>(value)`, which has identical value semantics. -/
def Insert (s : SimpleVector α) (index : Nat) (value : α) : SimpleVector α × Nat :=
  if s.elems.length = s.cap then
    let newCapacity := if s.cap = 0 then 1 else 2 * s.cap
    (⟨s.elems.take index ++ value :: s.elems.drop index, newCapacity⟩, index)
  else
    (⟨s.elems.take index ++ value :: s.elems.drop index, s.cap⟩, index)

/-- Embeds `Erase(pos)` with `index = pos - begin()`: when `index < size_ - 1`
the elements `[index + 1, size_)` move left one slot; then `--size_`.  Returns
`begin() + index`, embedded as the index.  The source has no assertion here.
(`size_ - 1` is `size_t` arithmetic; it differs from `Nat` subtraction only
when `size_ == 0`, where the call already has undefined iterator arithmetic,
so the embedding uses `Nat` subtraction.) -/
def Erase (s : SimpleVector α) (index : Nat) : SimpleVector α × Nat :=
  if index < s.elems.length - 1 then
    (⟨s.elems.take index ++ s.elems.drop (index + 1), s.cap⟩, index)
  else
    (⟨s.elems.take (s.elems.length - 1), s.cap⟩, index)

/-- Embeds `Reserve(new_capacity)`: when `new_capacity > capacity_` the live
elements move into a fresh buffer of exactly `new_capacity` slots and
`capacity_` becomes `new_capacity`; otherwise nothing happens. -/
def Reserve (s : SimpleVector α) (newCapacity : Nat) : SimpleVector α :=
  if s.cap < newCapacity then ⟨s.elems, newCapacity⟩ else s

/-- Embeds `Resize(new_size)`: growth beyond capacity reallocates to exactly
`new_size` and default-constructs the tail; growth within capacity
default-constructs slots `[size_, new_size)` in place; shrinking just lowers
`size_`. -/
def Resize [Inhabited α] (s : SimpleVector α) (newSize : Nat) : SimpleVector α :=
  if s.cap < newSize then
    ⟨s.elems ++ List.replicate (newSize - s.elems.length) default, newSize⟩
  else
    if s.elems.length < newSize then
      ⟨s.elems ++ List.replicate (newSize - s.elems.length) default, s.cap⟩
    else
      ⟨s.elems.take newSize, s.cap⟩

/-- Embeds `Clear`: sets `size_ = 0`, keeping the buffer. -/
def Clear (s : SimpleVector α) : SimpleVector α :=
  ⟨[], s.cap⟩

/-- Embeds `At(index)` (checked access): `throw std::out_of_range("Index out
of range")` when `index >= size_`, otherwise the element. -/
def At (s : SimpleVector α) (index : Nat) : Except String α :=
  if h : index < s.elems.length then Except.ok (s.elems.get ⟨index, h⟩)
  else Except.error "Index out of range"

/-- Embeds `swap(other)`: exchanges `array_`, `size_`, `capacity_` wholesale,
so the pair of states is simply exchanged. -/
def swap (s other : SimpleVector α) : SimpleVector α × SimpleVector α :=
  (other, s)

/-- Embeds the copy constructor: allocates `other.size_` slots, copies the
live elements, and sets both `size_` and `capacity_` to `other.size_`. -/
def CopyCtor (other : SimpleVector α) : SimpleVector α :=
  ⟨other.elems, other.elems.length⟩

/-- Embeds the copy assignment `operator=(const SimpleVector&)` for distinct
objects: copy-and-swap leaves the left side equal to a tight copy of the
right side. -/
def CopyAssign (_lhs rhs : SimpleVector α) : SimpleVector α :=
  ⟨rhs.elems, rhs.elems.length⟩

/-- Embeds the move constructor: the new object takes `array_`, `size_`,
`capacity_`; `other` is left with `size_ = 0`, `capacity_ = 0` (and, per the
spec of `ArrayPtr`, no storage).  Result: (constructed object, moved-from
source). -/
def MoveCtor (other : SimpleVector α) : SimpleVector α × SimpleVector α :=
  (⟨other.elems, other.cap⟩, ⟨[], 0⟩)

/-- Embeds the move assignment `operator=(SimpleVector&&)`: the source guards
with `if (this != &rhs)`; `self` encodes `this == &rhs`.  When distinct, the
left side takes storage, size and capacity and the right side is exchanged to
empty; when `self`, the body is skipped.  Result: (left side, right side)
after the call. -/
def MoveAssign (lhs rhs : SimpleVector α) (self : Bool) : SimpleVector α × SimpleVector α :=
  if self then (lhs, rhs) else (⟨rhs.elems, rhs.cap⟩, ⟨[], 0⟩)

/-- States reachable from the public constructors by the public mutators,
each mutator taken under its documented precondition (`PopBack` needs
`size_ > 0`; `Insert` takes a position in `[begin, end]`; `Erase` takes a
dereferenceable position, i.e. in `[begin, end)`). -/
inductive Reachable [Inhabited α] : SimpleVector α → Prop
  | defaultCtor : Reachable ⟨[], 0⟩
  | sizeCtor (n : Nat) : Reachable ⟨List.replicate n default, n⟩
  | fillCtor (n : Nat) (value : α) : Reachable ⟨List.replicate n value, n⟩
  | reserveCtor (c : Nat) : Reachable ⟨[], c⟩
  | initListCtor (l : List α) : Reachable ⟨l, l.length⟩
  | copyCtor (v : SimpleVector α) : Reachable v → Reachable (CopyCtor v)
  | moveCtorDst (v : SimpleVector α) : Reachable v → Reachable (MoveCtor v).1
  | moveCtorSrc (v : SimpleVector α) : Reachable v → Reachable (MoveCtor v).2
  | copyAssign (v w : SimpleVector α) : Reachable v → Reachable w →
      Reachable (CopyAssign v w)
  | moveAssignDst (v w : SimpleVector α) (self : Bool) : Reachable v → Reachable w →
      Reachable (MoveAssign v w self).1
  | moveAssignSrc (v w : SimpleVector α) (self : Bool) : Reachable v → Reachable w →
      Reachable (MoveAssign v w self).2
  | pushBack (v : SimpleVector α) (x : α) : Reachable v → Reachable (PushBack v x)
  | popBack (v : SimpleVector α) : Reachable v → 0 < v.elems.length →
      Reachable (PopBack v)
  | insert (v : SimpleVector α) (i : Nat) (x : α) : Reachable v →
      i ≤ v.elems.length → Reachable (Insert v i x).1
  | erase (v : SimpleVector α) (i : Nat) : Reachable v →
      i < v.elems.length → Reachable (Erase v i).1
  | reserve (v : SimpleVector α) (n : Nat) : Reachable v → Reachable (Reserve v n)
  | resize (v : SimpleVector α) (n : Nat) : Reachable v → Reachable (Resize v n)
  | clear (v : SimpleVector α) : Reachable v → Reachable (Clear v)
  | swapFst (v w : SimpleVector α) : Reachable v → Reachable w →
      Reachable (swap v w).1
  | swapSnd (v w : SimpleVector α) : Reachable v → Reachable w →
      Reachable (swap v w).2

end SimpleVector

/-- Heap of buffers, giving the `ArrayPtr` storage of each container an
identity.  A buffer is addressed by its index in `bufs`; a slot holds `none`
while uninitialized.  Allocation appends, so fresh buffers have fresh
addresses. -/
structure Mem (α : Type u) where
  bufs : List (List (Option α))

/-- Heap-level view of a `SimpleVector`: the address of its `array_` plus the
`size_` and `capacity_` fields. -/
structure SVm where
  buf : Nat
  size : Nat
  cap : Nat
deriving Repr, DecidableEq

namespace Mem

/-- Contents of the buffer at address `b` (empty for an unallocated address). -/
def getBuf (m : Mem α) (b : Nat) : List (Option α) :=
  m.bufs.getD b []

/-- Overwrite the buffer at address `b`. -/
def setBuf (m : Mem α) (b : Nat) (l : List (Option α)) : Mem α :=
  ⟨m.bufs.set b l⟩

/-- Modelled from the spec: `ArrayPtr<Type>` (the Buffer collaborator; its
header is not under src/) allocates `n` uninitialized slots in a fresh
buffer and hands back exclusive ownership of it. -/
def alloc (m : Mem α) (n : Nat) : Mem α × Nat :=
  (⟨m.bufs ++ [List.replicate n none]⟩, m.bufs.length)

/-- The live prefix `[0, size)` of a container's buffer. -/
def live (m : Mem α) (v : SVm) : List (Option α) :=
  (getBuf m v.buf).take v.size

/-- Heap-level copy constructor: allocate `other.size_` slots in a fresh
buffer, copy the live elements across, set `size_ = capacity_ = other.size_`. -/
def CopyCtorM (m : Mem α) (v : SVm) : Mem α × SVm :=
  let a := alloc m v.size
  (setBuf a.1 a.2 (live m v), ⟨a.2, v.size, v.size⟩)

/-- Heap-level `PushBack`: at capacity, allocate a doubled fresh buffer, move
the live elements into it, swap it in (the old buffer is released when the
local `ArrayPtr` holding it dies), then placement-construct the item at slot
`size_`; otherwise construct in place. -/
def PushBackM (m : Mem α) (v : SVm) (x : α) : Mem α × SVm :=
  if v.size = v.cap then
    let newCapacity := if v.cap = 0 then 1 else 2 * v.cap
    let a := alloc m newCapacity
    let m1 := setBuf a.1 a.2 (live m v ++ List.replicate (newCapacity - v.size) none)
    let m2 := setBuf m1 v.buf []
    let m3 := setBuf m2 a.2 ((getBuf m2 a.2).set v.size (some x))
    (m3, ⟨a.2, v.size + 1, newCapacity⟩)
  else
    (setBuf m v.buf ((getBuf m v.buf).set v.size (some x)),
      ⟨v.buf, v.size + 1, v.cap⟩)

end Mem

theorem Mem.getBuf_setBuf_ne (m : Mem α) (l : List (Option α)) {b b' : Nat}
    (h : b' ≠ b) : (m.setBuf b l).getBuf b' = m.getBuf b' := by
  simp [Mem.setBuf, Mem.getBuf, List.getElem?_set_ne (Ne.symm h)]

theorem Mem.getBuf_setBuf_self (m : Mem α) (l : List (Option α)) {b : Nat}
    (h : b < m.bufs.length) : (m.setBuf b l).getBuf b = l := by
  simp [Mem.setBuf, Mem.getBuf, List.getElem?_set_self h]

theorem Mem.getBuf_alloc (m : Mem α) (n : Nat) {b : Nat}
    (h : b < m.bufs.length) : (m.alloc n).1.getBuf b = m.getBuf b := by
  simp [Mem.alloc, Mem.getBuf, List.getElem?_append_left h]

theorem Mem.length_setBuf (m : Mem α) (b : Nat) (l : List (Option α)) :
    (m.setBuf b l).bufs.length = m.bufs.length := by
  simp [Mem.setBuf]

theorem Mem.length_alloc (m : Mem α) (n : Nat) :
    (m.alloc n).1.bufs.length = m.bufs.length + 1 := by
  simp [Mem.alloc]

theorem Mem.alloc_snd (m : Mem α) (n : Nat) : (m.alloc n).2 = m.bufs.length :=
  rfl

theorem Mem.getBuf_copyCtorM (m : Mem α) (v : SVm) {b : Nat}
    (hb : b < m.bufs.length) :
    (Mem.CopyCtorM m v).1.getBuf b = m.getBuf b := by
  unfold Mem.CopyCtorM
  rw [Mem.getBuf_setBuf_ne _ _ (by rw [Mem.alloc_snd]; omega),
    Mem.getBuf_alloc _ _ hb]

theorem Mem.copyCtorM_buf (m : Mem α) (v : SVm) :
    (Mem.CopyCtorM m v).2.buf = m.bufs.length :=
  rfl

theorem Mem.length_copyCtorM (m : Mem α) (v : SVm) :
    (Mem.CopyCtorM m v).1.bufs.length = m.bufs.length + 1 := by
  unfold Mem.CopyCtorM
  rw [Mem.length_setBuf, Mem.length_alloc]

theorem Mem.getBuf_pushBackM_ne (m : Mem α) (w : SVm) (x : α) {b : Nat}
    (hb : b < m.bufs.length) (hbw : b ≠ w.buf) :
    (Mem.PushBackM m w x).1.getBuf b = m.getBuf b := by
  unfold Mem.PushBackM
  by_cases h : w.size = w.cap
  · rw [if_pos h]
    have hfresh : b ≠ (m.alloc (if w.cap = 0 then 1 else 2 * w.cap)).2 := by
      rw [Mem.alloc_snd]; omega
    rw [Mem.getBuf_setBuf_ne _ _ hfresh, Mem.getBuf_setBuf_ne _ _ hbw,
      Mem.getBuf_setBuf_ne _ _ hfresh, Mem.getBuf_alloc _ _ hb]
  · rw [if_neg h, Mem.getBuf_setBuf_ne _ _ hbw]

/-- C2: a `PushBack` that finds `size == capacity` grows the capacity to
`max(1, 2 * capacity)`, keeps the existing elements in order before appending
the new value, and increments the size; a `PushBack` under capacity keeps the
capacity; consequently pushing five ints into a default-constructed vector
yields the capacity sequence 1, 2, 4, 4, 8 and the size sequence 1..5. -/
theorem C2_pushBack_spec {α : Type u} (s : SimpleVector α) (x : α) :
    ((s.GetSize = s.cap → (s.PushBack x).cap = max 1 (2 * s.cap))
      ∧ (s.GetSize ≠ s.cap → (s.PushBack x).cap = s.cap)
      ∧ (s.PushBack x).elems = s.elems ++ [x]
      ∧ (s.PushBack x).GetSize = s.GetSize + 1)
    ∧ (let v0 : SimpleVector Int := ⟨[], 0⟩
       let v1 := v0.PushBack 10
       let v2 := v1.PushBack 20
       let v3 := v2.PushBack 30
       let v4 := v3.PushBack 40
       let v5 := v4.PushBack 50
       (v1.cap, v2.cap, v3.cap, v4.cap, v5.cap) = (1, 2, 4, 4, 8)
         ∧ (v1.GetSize, v2.GetSize, v3.GetSize, v4.GetSize, v5.GetSize)
             = (1, 2, 3, 4, 5)) := by
  refine ⟨⟨?_, ?_, ?_, ?_⟩, by decide⟩
  · intro h
    simp only [SimpleVector.GetSize] at h
    simp only [SimpleVector.PushBack, if_pos h]
    split <;> omega
  · intro h
    simp only [SimpleVector.GetSize] at h
    simp only [SimpleVector.PushBack, if_neg h]
  · simp only [SimpleVector.PushBack]
    split <;> rfl
  · simp only [SimpleVector.PushBack, SimpleVector.GetSize]
    split <;> simp

/-- C2 witness: the general part of `C2_pushBack_spec` instantiated on the
empty vector, with the at-capacity hypothesis discharged. -/
theorem C2_pushBack_witness :
    ((⟨[], 0⟩ : SimpleVector Int).PushBack 7).cap = max 1 (2 * 0)
      ∧ ((⟨[], 0⟩ : SimpleVector Int).PushBack 7).elems = [] ++ [7] :=
  ⟨(C2_pushBack_spec (⟨[], 0⟩ : SimpleVector Int) 7).1.1 rfl,
   (C2_pushBack_spec (⟨[], 0⟩ : SimpleVector Int) 7).1.2.2.1⟩

/-- C4: checked access `At` fails with the "index out of range" condition
exactly when `index >= size`; in particular `At(size)` and `At(size + 5)`
fail, and on a nonempty vector `At(size - 1)` returns the last element. -/
theorem C4_at_spec (s : SimpleVector α) (i : Nat) :
    (s.At i = Except.error "Index out of range" ↔ s.GetSize ≤ i)
    ∧ s.At s.GetSize = Except.error "Index out of range"
    ∧ s.At (s.GetSize + 5) = Except.error "Index out of range"
    ∧ (0 < s.GetSize →
        ∃ x, s.At (s.GetSize - 1) = Except.ok x ∧ s.elems.getLast? = some x) := by
  refine ⟨?_, ?_, ?_, ?_⟩
  · simp only [SimpleVector.At, SimpleVector.GetSize]
    split <;> rename_i h
    · exact iff_of_false (fun hc => Except.noConfusion hc) (by omega)
    · exact iff_of_true rfl (by omega)
  · simp [SimpleVector.At, SimpleVector.GetSize]
  · simp [SimpleVector.At, SimpleVector.GetSize]
  · intro h
    simp only [SimpleVector.GetSize] at h
    refine ⟨s.elems.get ⟨s.elems.length - 1, by omega⟩, ?_, ?_⟩
    · simp only [SimpleVector.At, SimpleVector.GetSize]
      rw [dif_pos (by omega : s.elems.length - 1 < s.elems.length)]
    · rw [List.getLast?_eq_getElem?, List.getElem?_eq_getElem (by omega)]
      simp

/-- C4 witness: `C4_at_spec` on the one-element vector `[7]`: `At 1` fails
out of range, `At 0` returns the last element. -/
theorem C4_at_witness :
    ((⟨[7], 1⟩ : SimpleVector Int).At 1 = Except.error "Index out of range")
    ∧ ∃ x, (⟨[7], 1⟩ : SimpleVector Int).At 0 = Except.ok x
        ∧ ([7] : List Int).getLast? = some x := by
  have h := C4_at_spec (⟨[7], 1⟩ : SimpleVector Int) 1
  exact ⟨h.2.1, h.2.2.2 (by decide)⟩

/-- C6: for `0 <= i < size`, `Erase` at index `i` decreases the size by one,
the resulting sequence is the original with index `i` removed (order
preserved, capacity unchanged), and the returned iterator is `begin() + i`,
the position of the element that followed the erased one (or `end()` when the
erased element was last). -/
theorem C6_erase_spec (s : SimpleVector α) (i : Nat) (h : i < s.GetSize) :
    (s.Erase i).1.GetSize = s.GetSize - 1
    ∧ (s.Erase i).1.elems = s.elems.take i ++ s.elems.drop (i + 1)
    ∧ (s.Erase i).1.cap = s.cap
    ∧ (s.Erase i).2 = i := by
  simp only [SimpleVector.GetSize] at h ⊢
  by_cases hc : i < s.elems.length - 1
  · have h1 : s.Erase i = (⟨s.elems.take i ++ s.elems.drop (i + 1), s.cap⟩, i) := by
      simp only [SimpleVector.Erase, if_pos hc]
    rw [h1]
    refine ⟨?_, rfl, rfl, rfl⟩
    simp only [List.length_append, List.length_take, List.length_drop]
    omega
  · have hi : i = s.elems.length - 1 := by omega
    have h1 : s.Erase i = (⟨s.elems.take (s.elems.length - 1), s.cap⟩, i) := by
      simp only [SimpleVector.Erase, if_neg hc]
    have hdrop : s.elems.drop (i + 1) = [] :=
      List.drop_eq_nil_of_le (by omega)
    rw [h1]
    refine ⟨?_, ?_, rfl, rfl⟩
    · simp only [List.length_take]
      omega
    · rw [hdrop, List.append_nil, hi]

/-- C6 witness: erasing index 1 of `[1, 2, 3]` (capacity 3) yields `[1, 3]`,
size 2, capacity 3, and returns index 1. -/
theorem C6_erase_witness :
    ((⟨[1, 2, 3], 3⟩ : SimpleVector Int).Erase 1).1.elems = [1, 3]
    ∧ ((⟨[1, 2, 3], 3⟩ : SimpleVector Int).Erase 1).1.GetSize = 2
    ∧ ((⟨[1, 2, 3], 3⟩ : SimpleVector Int).Erase 1).2 = 1 := by
  have h := C6_erase_spec (⟨[1, 2, 3], 3⟩ : SimpleVector Int) 1 (by decide)
  exact ⟨by simpa using h.2.1, by simpa using h.1, h.2.2.2⟩

/-- C7: `Reserve(newCap)` is a no-op when `newCap <= capacity`; when
`newCap > capacity` it sets the capacity to exactly `newCap` while keeping
the size and the elements; capacity never shrinks, and a second `Reserve`
with the same argument is always a no-op. -/
theorem C7_reserve_spec (s : SimpleVector α) (n : Nat) :
    (n ≤ s.cap → s.Reserve n = s)
    ∧ (s.cap < n → (s.Reserve n).cap = n ∧ (s.Reserve n).elems = s.elems
        ∧ (s.Reserve n).GetSize = s.GetSize)
    ∧ (s.Reserve n).Reserve n = s.Reserve n
    ∧ s.cap ≤ (s.Reserve n).cap := by
  refine ⟨?_, ?_, ?_, ?_⟩
  · intro h
    simp only [SimpleVector.Reserve, if_neg (by omega : ¬s.cap < n)]
  · intro h
    have h1 : s.Reserve n = ⟨s.elems, n⟩ := by
      simp only [SimpleVector.Reserve, if_pos h]
    rw [h1]
    exact ⟨rfl, rfl, rfl⟩
  · by_cases h : s.cap < n
    · have h1 : s.Reserve n = ⟨s.elems, n⟩ := by
        simp only [SimpleVector.Reserve, if_pos h]
      rw [h1]
      simp only [SimpleVector.Reserve, if_neg (by omega : ¬n < n)]
    · simp only [SimpleVector.Reserve, if_neg h]
  · by_cases h : s.cap < n
    · have h1 : s.Reserve n = ⟨s.elems, n⟩ := by
        simp only [SimpleVector.Reserve, if_pos h]
      rw [h1]
      exact Nat.le_of_lt h
    · simp only [SimpleVector.Reserve, if_neg h]
      exact Nat.le_refl _

/-- C7 witness: on `⟨[1], 1⟩`, `Reserve 5` sets the capacity to 5 and
`Reserve 1` is a no-op. -/
theorem C7_reserve_witness :
    ((⟨[1], 1⟩ : SimpleVector Int).Reserve 5).cap = 5
    ∧ (⟨[1], 1⟩ : SimpleVector Int).Reserve 1 = ⟨[1], 1⟩ :=
  ⟨((C7_reserve_spec (⟨[1], 1⟩ : SimpleVector Int) 5).2.1 (by decide)).1,
   (C7_reserve_spec (⟨[1], 1⟩ : SimpleVector Int) 1).1 (by decide)⟩

/-- C9: move construction transfers elements, size and capacity and leaves
the source with size 0 and capacity 0; move assignment between distinct
objects does the same; move-assigning an object to itself (the
`this == &rhs` guard) changes nothing. -/
theorem C9_move_spec (v lhs rhs : SimpleVector α) :
    (SimpleVector.MoveCtor v).1 = v
    ∧ (SimpleVector.MoveCtor v).2.GetSize = 0
    ∧ (SimpleVector.MoveCtor v).2.cap = 0
    ∧ (SimpleVector.MoveAssign lhs rhs false).1 = rhs
    ∧ (SimpleVector.MoveAssign lhs rhs false).2.GetSize = 0
    ∧ (SimpleVector.MoveAssign lhs rhs false).2.cap = 0
    ∧ SimpleVector.MoveAssign v v true = (v, v) :=
  ⟨rfl, rfl, rfl, rfl, rfl, rfl, rfl⟩

/-- C10: inserting at `end()` coincides with `PushBack`: the resulting state
(elements and capacity, hence also size) is identical and the returned
iterator is `begin() + old size`. -/
theorem C10_insert_end_eq_pushBack (s : SimpleVector α) (x : α) :
    (s.Insert s.GetSize x).1 = s.PushBack x
    ∧ (s.Insert s.GetSize x).2 = s.GetSize := by
  constructor
  · simp only [SimpleVector.Insert, SimpleVector.PushBack, SimpleVector.GetSize,
      List.take_length, List.drop_length]
    split <;> rfl
  · simp only [SimpleVector.Insert]
    split <;> rfl

/-- C3 counterexample: on the vector `[5]` (size 1, capacity 1), `Erase` at
the end position (index 1, not dereferenceable) fires no debug assertion —
`Erase`'s body contains no `assert` — and instead silently removes the last
element, returning index 1.  The claim that this contract violation
"triggers an assertion failure in debug builds" for `Erase` is therefore
false. -/
theorem C3_counterexample :
    SimpleVector.EraseAssertViolated (⟨[5], 1⟩ : SimpleVector Int) 1 = false
    ∧ SimpleVector.Erase (⟨[5], 1⟩ : SimpleVector Int) 1 = (⟨[], 1⟩, 1) := by
  decide

/-- C3 amended: `PopBack`'s debug assertion fires exactly on an empty vector
and `operator[]`'s fires exactly when the index is outside `[0, size)`, but
`Erase` contains no assertion at all: calling it on the end position of a
nonempty vector aborts nothing and silently removes the last element (on an
empty vector the call's iterator arithmetic is undefined behavior). -/
theorem C3_asserts_amended (s : SimpleVector α) (i : Nat) :
    (SimpleVector.PopBackAssertViolated s = true ↔ s.GetSize = 0)
    ∧ (SimpleVector.SubscriptAssertViolated s i = true ↔ s.GetSize ≤ i)
    ∧ SimpleVector.EraseAssertViolated s i = false
    ∧ (0 < s.GetSize →
        (s.Erase s.GetSize).1.elems = s.elems.take (s.GetSize - 1)
        ∧ (s.Erase s.GetSize).1.GetSize = s.GetSize - 1
        ∧ (s.Erase s.GetSize).2 = s.GetSize) := by
  refine ⟨?_, ?_, rfl, ?_⟩
  · simp [SimpleVector.PopBackAssertViolated, SimpleVector.GetSize]
  · simp [SimpleVector.SubscriptAssertViolated, SimpleVector.GetSize]
  · intro h
    simp only [SimpleVector.GetSize] at h ⊢
    have h1 : s.Erase s.elems.length
        = (⟨s.elems.take (s.elems.length - 1), s.cap⟩, s.elems.length) := by
      simp only [SimpleVector.Erase, if_neg (by omega : ¬s.elems.length < s.elems.length - 1)]
    rw [h1]
    refine ⟨rfl, ?_, rfl⟩
    simp only [List.length_take]
    omega

/-- C3 amended witness: `PopBack`'s assertion fires on the empty vector, and
`Erase` at the end of `[5]` silently truncates instead of aborting,
returning the end index 1. -/
theorem C3_amended_witness :
    SimpleVector.PopBackAssertViolated (⟨[], 0⟩ : SimpleVector Int) = true
    ∧ (SimpleVector.Erase (⟨[5], 1⟩ : SimpleVector Int) 1).1.elems
        = ([5] : List Int).take 0
    ∧ (SimpleVector.Erase (⟨[5], 1⟩ : SimpleVector Int) 1).2 = 1 :=
  ⟨(C3_asserts_amended (⟨[], 0⟩ : SimpleVector Int) 0).1.mpr rfl,
   ((C3_asserts_amended (⟨[5], 1⟩ : SimpleVector Int) 0).2.2.2 (by decide)).1,
   ((C3_asserts_amended (⟨[5], 1⟩ : SimpleVector Int) 0).2.2.2 (by decide)).2.2⟩

/-- C1 (intended semantics of the ill-formed source, see `Insert`): for
`0 <= i <= n`, `Insert` at index `i` yields size `n + 1`, puts the inserted
value at index `i`, keeps the elements before `i`, shifts the elements
previously at `[i, n)` to `[i + 1, n + 1)` in order, and returns the index
`i`; at capacity the spliced buffer has capacity `max(1, 2 * capacity)`,
otherwise the capacity is unchanged. -/
theorem C1_insert_spec (s : SimpleVector α) (i : Nat) (x : α)
    (h : i ≤ s.GetSize) :
    (s.Insert i x).1.GetSize = s.GetSize + 1
    ∧ (s.Insert i x).1.elems = s.elems.take i ++ x :: s.elems.drop i
    ∧ (s.Insert i x).1.elems[i]? = some x
    ∧ (s.Insert i x).2 = i
    ∧ (s.GetSize = s.cap → (s.Insert i x).1.cap = max 1 (2 * s.cap))
    ∧ (s.GetSize ≠ s.cap → (s.Insert i x).1.cap = s.cap) := by
  simp only [SimpleVector.GetSize] at h ⊢
  have helems : (s.Insert i x).1.elems = s.elems.take i ++ x :: s.elems.drop i := by
    simp only [SimpleVector.Insert]
    split <;> rfl
  have hsnd : (s.Insert i x).2 = i := by
    simp only [SimpleVector.Insert]
    split <;> rfl
  refine ⟨?_, helems, ?_, hsnd, ?_, ?_⟩
  · rw [helems]
    simp only [List.length_append, List.length_take, List.length_cons,
      List.length_drop]
    omega
  · rw [helems]
    rw [List.getElem?_append_right (by simp only [List.length_take]; omega)]
    simp only [List.length_take]
    have : i - min i s.elems.length = 0 := by omega
    rw [this]
    exact List.getElem?_cons_zero
  · intro hcap
    have h1 : (s.Insert i x).1.cap = if s.cap = 0 then 1 else 2 * s.cap := by
      simp only [SimpleVector.Insert, if_pos hcap]
    rw [h1]
    split <;> omega
  · intro hcap
    have h1 : (s.Insert i x).1.cap = s.cap := by
      simp only [SimpleVector.Insert, if_neg hcap]
    rw [h1]

/-- C1 witness: inserting 9 at index 1 of `[1, 2]` (which is at capacity 2)
yields `[1, 9, 2]` with capacity 4 and returns index 1. -/
theorem C1_insert_witness :
    ((⟨[1, 2], 2⟩ : SimpleVector Int).Insert 1 9).1.elems = [1, 9, 2]
    ∧ ((⟨[1, 2], 2⟩ : SimpleVector Int).Insert 1 9).1.cap = max 1 (2 * 2)
    ∧ ((⟨[1, 2], 2⟩ : SimpleVector Int).Insert 1 9).2 = 1 := by
  have h := C1_insert_spec (⟨[1, 2], 2⟩ : SimpleVector Int) 1 9 (by decide)
  exact ⟨by simpa using h.2.1, h.2.2.2.2.1 rfl, h.2.2.2.1⟩

/-- C5: `0 <= size <= capacity` holds in every state reachable from the
public constructors through the public mutators (each used within its
documented precondition); `0 <= size` is inherent in the `Nat` embedding. -/
theorem C5_size_le_cap {α : Type u} [Inhabited α] (v : SimpleVector α)
    (h : SimpleVector.Reachable v) : v.GetSize ≤ v.cap := by
  induction h with
  | defaultCtor => exact Nat.le_refl 0
  | sizeCtor n => simp [SimpleVector.GetSize]
  | fillCtor n value => simp [SimpleVector.GetSize]
  | reserveCtor c => exact Nat.zero_le c
  | initListCtor l => exact Nat.le_refl _
  | copyCtor w _ _ => exact Nat.le_refl _
  | moveCtorDst w _ ih => exact ih
  | moveCtorSrc w _ _ => exact Nat.le_refl 0
  | copyAssign w u _ _ _ _ => exact Nat.le_refl _
  | moveAssignDst w u self _ _ ihw ihu =>
      cases self
      · exact ihu
      · exact ihw
  | moveAssignSrc w u self _ _ ihw ihu =>
      cases self
      · exact Nat.le_refl 0
      · exact ihu
  | pushBack w x _ ih =>
      simp only [SimpleVector.GetSize] at ih
      by_cases hc : w.elems.length = w.cap
      · have h1 : w.PushBack x
            = ⟨w.elems ++ [x], if w.cap = 0 then 1 else 2 * w.cap⟩ := by
          simp only [SimpleVector.PushBack, if_pos hc]
        rw [h1]
        show (w.elems ++ [x]).length ≤ (if w.cap = 0 then 1 else 2 * w.cap)
        simp only [List.length_append, List.length_cons, List.length_nil]
        split <;> omega
      · have h1 : w.PushBack x = ⟨w.elems ++ [x], w.cap⟩ := by
          simp only [SimpleVector.PushBack, if_neg hc]
        rw [h1]
        show (w.elems ++ [x]).length ≤ w.cap
        simp only [List.length_append, List.length_cons, List.length_nil]
        omega
  | popBack w _ _ ih =>
      simp only [SimpleVector.GetSize, SimpleVector.PopBack, List.length_take] at ih ⊢
      omega
  | insert w i x _ hpre ih =>
      simp only [SimpleVector.GetSize] at ih hpre
      by_cases hc : w.elems.length = w.cap
      · have h1 : (w.Insert i x).1
            = ⟨w.elems.take i ++ x :: w.elems.drop i,
               if w.cap = 0 then 1 else 2 * w.cap⟩ := by
          simp only [SimpleVector.Insert, if_pos hc]
        rw [h1]
        show (w.elems.take i ++ x :: w.elems.drop i).length
          ≤ (if w.cap = 0 then 1 else 2 * w.cap)
        simp only [List.length_append, List.length_take, List.length_cons,
          List.length_drop]
        split <;> omega
      · have h1 : (w.Insert i x).1
            = ⟨w.elems.take i ++ x :: w.elems.drop i, w.cap⟩ := by
          simp only [SimpleVector.Insert, if_neg hc]
        rw [h1]
        show (w.elems.take i ++ x :: w.elems.drop i).length ≤ w.cap
        simp only [List.length_append, List.length_take, List.length_cons,
          List.length_drop]
        omega
  | erase w i _ hpre ih =>
      simp only [SimpleVector.GetSize, SimpleVector.Erase] at ih ⊢
      split <;>
        simp only [List.length_append, List.length_take, List.length_drop] <;>
        omega
  | reserve w n _ ih =>
      simp only [SimpleVector.GetSize] at ih
      by_cases hc : w.cap < n
      · have h1 : w.Reserve n = ⟨w.elems, n⟩ := by
          simp only [SimpleVector.Reserve, if_pos hc]
        rw [h1]
        show w.elems.length ≤ n
        omega
      · have h1 : w.Reserve n = w := by
          simp only [SimpleVector.Reserve, if_neg hc]
        rw [h1]
        exact ih
  | resize w n _ ih =>
      simp only [SimpleVector.GetSize, SimpleVector.Resize] at ih ⊢
      split <;> rename_i hc
      · simp only [List.length_append, List.length_replicate]
        omega
      · split <;> rename_i hc2
        · simp only [List.length_append, List.length_replicate]
          omega
        · simp only [List.length_take]
          omega
  | clear w _ _ => exact Nat.zero_le _
  | swapFst w u _ _ _ ihu => exact ihu
  | swapSnd w u _ _ ihw _ => exact ihw

/-- C5 witness: the invariant at a concrete reachable state, reached through
a constructor and a mutator. -/
theorem C8_copy_deep {α : Type u} (m : Mem α) (v : SVm) (x : α)
    (hv : v.buf < m.bufs.length) :
    ((Mem.CopyCtorM m v).2.size = v.size
      ∧ (Mem.CopyCtorM m v).2.cap = v.size
      ∧ Mem.live (Mem.CopyCtorM m v).1 (Mem.CopyCtorM m v).2 = Mem.live m v)
    ∧ Mem.live (Mem.PushBackM (Mem.CopyCtorM m v).1 (Mem.CopyCtorM m v).2 x).1 v
        = Mem.live m v
    ∧ (Mem.PushBackM (Mem.CopyCtorM m v).1 (Mem.CopyCtorM m v).2 x).1.getBuf v.buf
        = m.getBuf v.buf := by
  have hbuf : (Mem.CopyCtorM m v).2.buf = m.bufs.length := rfl
  have hlen : (Mem.CopyCtorM m v).1.bufs.length = m.bufs.length + 1 :=
    Mem.length_copyCtorM m v
  have hne : v.buf ≠ (Mem.CopyCtorM m v).2.buf := by
    rw [hbuf]; omega
  have hisol : (Mem.PushBackM (Mem.CopyCtorM m v).1 (Mem.CopyCtorM m v).2 x).1.getBuf v.buf
      = (Mem.CopyCtorM m v).1.getBuf v.buf :=
    Mem.getBuf_pushBackM_ne _ _ x (by rw [hlen]; omega) hne
  have hpre : (Mem.CopyCtorM m v).1.getBuf v.buf = m.getBuf v.buf :=
    Mem.getBuf_copyCtorM m v hv
  have hself : (Mem.CopyCtorM m v).1.getBuf (Mem.CopyCtorM m v).2.buf
      = Mem.live m v := by
    simp only [Mem.CopyCtorM]
    exact Mem.getBuf_setBuf_self _ _
      (by rw [Mem.length_alloc, Mem.alloc_snd]; omega)
  refine ⟨⟨rfl, rfl, ?_⟩, ?_, hisol.trans hpre⟩
  · show ((Mem.CopyCtorM m v).1.getBuf (Mem.CopyCtorM m v).2.buf).take
        (Mem.CopyCtorM m v).2.size = Mem.live m v
    rw [hself]
    show (Mem.live m v).take v.size = Mem.live m v
    simp [Mem.live, List.take_take]
  · show ((Mem.PushBackM (Mem.CopyCtorM m v).1 (Mem.CopyCtorM m v).2 x).1.getBuf
        v.buf).take v.size = Mem.live m v
    rw [hisol, hpre]
    rfl

/-- C8 witness: `C8_copy_deep` on the heap holding one buffer `[1, 2]` and a
vector of size 2 over it: pushing 9 onto the copy leaves the original's
live elements untouched. -/
theorem C8_copy_deep_witness :
    Mem.live (Mem.PushBackM (Mem.CopyCtorM (⟨[[some 1, some 2]]⟩ : Mem Int)
        ⟨0, 2, 2⟩).1 (Mem.CopyCtorM (⟨[[some 1, some 2]]⟩ : Mem Int) ⟨0, 2, 2⟩).2
        9).1 ⟨0, 2, 2⟩
      = Mem.live (⟨[[some 1, some 2]]⟩ : Mem Int) ⟨0, 2, 2⟩ :=
  (C8_copy_deep (⟨[[some 1, some 2]]⟩ : Mem Int) ⟨0, 2, 2⟩ 9 (by decide)).2.1

/-- C5 witness: the invariant at a concrete reachable state, reached through
a constructor and a mutator. -/
theorem C5_size_le_cap_witness :
    (SimpleVector.PushBack (⟨[], 0⟩ : SimpleVector Int) 5).GetSize
      ≤ (SimpleVector.PushBack (⟨[], 0⟩ : SimpleVector Int) 5).cap :=
  C5_size_le_cap _
    (SimpleVector.Reachable.pushBack _ 5 SimpleVector.Reachable.defaultCtor)
